import Mathlib

/-
Verification development for the FaultMap node-ranking engine
(src/ranking/noderank.py).  Matrices are embedded as functions over `Fin n`
with exact rational arithmetic; Python dictionaries keyed by variable names
are embedded as a key list together with a total value function; the
iterative centrality routines of the external graph library are abstracted
as function parameters (no claim below is about their numeric output).
-/

namespace FaultMap

/-- Sum of absolute values of column `j` of a matrix, as computed by
`np.sum(abs(gainmatrix[:, col]))` in `calc_simple_rank`. -/
def colAbsSum {n : ℕ} (g : Matrix (Fin n) (Fin n) ℚ) (j : Fin n) : ℚ :=
  ∑ i, |g i j|

/-- Guarded column-normalization loop of `calc_simple_rank`
(noderank.py lines 149-158, repeated at 189-198): a column whose absolute
sum is zero is left unchanged, any other column is divided by its sum. -/
def normCols {n : ℕ} (g : Matrix (Fin n) (Fin n) ℚ) : Matrix (Fin n) (Fin n) ℚ :=
  Matrix.of fun i j => if colAbsSum g j = 0 then g i j else g i j / colAbsSum g j

/-- Normalized bias vector
`relative_reset_vector_norm = biasvector / sum(biasvector)` (lines 162-165). -/
def relativeResetVectorNorm {n : ℕ} (b : Fin n → ℚ) : Fin n → ℚ :=
  fun i => b i / ∑ k, b k

/-- Reset (personalization) matrix `np.array([relative_reset_vector_norm, ]*n)`
(line 167): the normalized bias vector stacked as each of the `n` rows. -/
def resetmatrix {n : ℕ} (b : Fin n → ℚ) : Matrix (Fin n) (Fin n) ℚ :=
  Matrix.of fun _i => relativeResetVectorNorm b

/-- Weight matrix before transposition:
`weightmatrix = (m * gainmatrix) + ((1-m) * resetmatrix)` (line 171), where
`gainmatrix` has already been column-normalized in place. -/
def weightmatrixPre {n : ℕ} (m : ℚ) (g : Matrix (Fin n) (Fin n) ℚ)
    (b : Fin n → ℚ) : Matrix (Fin n) (Fin n) ℚ :=
  m • normCols g + (1 - m) • resetmatrix b

/-- Unguarded column normalization (lines 177-179): every column is divided by
its absolute sum, with no zero-column check. -/
def normColsUnguarded {n : ℕ} (w : Matrix (Fin n) (Fin n) ℚ) :
    Matrix (Fin n) (Fin n) ℚ :=
  Matrix.of fun i j => w i j / colAbsSum w j

/-- Final weight matrix handed to the eigenvector-family centrality: transpose
of the mixed matrix, re-column-normalized without a zero guard
(lines 174-179). -/
def weightmatrix {n : ℕ} (m : ℚ) (g : Matrix (Fin n) (Fin n) ℚ)
    (b : Fin n → ℚ) : Matrix (Fin n) (Fin n) ℚ :=
  normColsUnguarded (weightmatrixPre m g b).transpose

/-- Transposed and re-normalized gain matrix used for the sparse
Katz/PageRank graph (lines 184-198). -/
def gainmatrixT {n : ℕ} (g : Matrix (Fin n) (Fin n) ℚ) :
    Matrix (Fin n) (Fin n) ℚ :=
  normCols (normCols g).transpose

/-- All (row, col) index pairs, as enumerated by the nested
`for col ... for row ...` loops of `calc_simple_rank` (lines 205-218). -/
def allPairs (n : ℕ) : List (Fin n × Fin n) :=
  (List.finRange n).flatMap fun c => (List.finRange n).map fun r => (r, c)

/-- Fully connected weighted digraph `reset_gaingraph` (lines 202, 209-210):
for every (row, col) pair an edge from the row-index variable to the
column-index variable, `add_edge(rowvar, colvar, weight=weightmatrix[row, col])`,
as a list of (source, target, weight) triples. -/
def reset_gaingraph {V : Type} {n : ℕ} (vars : Fin n → V)
    (wm : Matrix (Fin n) (Fin n) ℚ) : List (V × V × ℚ) :=
  (allPairs n).map fun p => (vars p.1, vars p.2, wm p.1 p.2)

/-- Sparse weighted digraph `sparse_gaingraph` (lines 203, 214-218): an edge
`add_edge(rowvar, colvar, weight=gainmatrix[row, col])` for every nonzero
entry of the transposed renormalized gain matrix. -/
def sparse_gaingraph {V : Type} {n : ℕ} (vars : Fin n → V)
    (gt : Matrix (Fin n) (Fin n) ℚ) : List (V × V × ℚ) :=
  ((allPairs n).filter fun p => decide (gt p.1 p.2 ≠ 0)).map
    fun p => (vars p.1, vars p.2, gt p.1 p.2)

/-- Edge reversal `G.reverse()` of networkx: each (source, target, weight)
triple becomes (target, source, weight). -/
def reverseG {V : Type} (es : List (V × V × ℚ)) : List (V × V × ℚ) :=
  es.map fun e => (e.2.1, e.1, e.2.2)

/-- Weight of the edge from `u` to `v` in an edge list, when present. -/
def edgeWeightOn {V : Type} [DecidableEq V] (es : List (V × V × ℚ))
    (u v : V) : Option ℚ :=
  (es.find? fun e => decide (e.1 = u) && decide (e.2.1 = v)).map
    fun e => e.2.2

/-- Embedding of a Python ranking dictionary: its key list together with a
total value function (lookup of a present key never fails). -/
structure RDict (V : Type) where
  keys : List V
  val : V → ℚ

/-- Maximum of a list of rationals, as computed by Python `max` on a
nonempty collection (zero returned on the empty list, on which Python
raises instead). -/
def listMaxQ : List ℚ → ℚ
  | [] => 0
  | x :: xs => xs.foldl max x

/-- Largest value of a ranking dictionary, `max(rankingdict.values())`
(line 329). -/
def maxValues {V : Type} (d : RDict V) : ℚ :=
  listMaxQ (d.keys.map d.val)

/-- Difference loop of `calc_transient_importancediffs` (lines 324-326):
successive differences against the threaded previous importance. -/
def diffLoop {V : Type} (v : V) : ℚ → List (RDict V) → List ℚ
  | _, [] => []
  | prev, d :: rest => (d.val v - prev) :: diffLoop v (d.val v) rest

/-- Entry of `transientdict` for one variable (lines 318, 322-327): the
vector of successive importance differences, starting against window 0. -/
def transientdict {V : Type} (rankingdicts : List (RDict V)) (v : V) : List ℚ :=
  match rankingdicts with
  | [] => []
  | d0 :: rest => diffLoop v (d0.val v) rest

/-- Entry of `basevaldict` for one variable (line 321): window 0 importance. -/
def basevaldict {V : Type} (rankingdicts : List (RDict V)) (v : V) : ℚ :=
  match rankingdicts with
  | [] => 0
  | d0 :: _ => d0.val v

/-- Entry of `boxrankdict` for one variable (lines 328-332): the absolute
importance score in each window. -/
def boxrankdict {V : Type} (rankingdicts : List (RDict V)) (v : V) : List ℚ :=
  rankingdicts.map fun d => d.val v

/-- Entry of `rel_boxrankdict` for one variable (lines 328-333): each window
score divided by the maximum score occurring in that window. -/
def rel_boxrankdict {V : Type} (rankingdicts : List (RDict V)) (v : V) : List ℚ :=
  rankingdicts.map fun d => d.val v / maxValues d

/-- Descending-by-score order used by `sorted(..., key=itemgetter(1),
reverse=True)` on dictionary items (lines 262-264, 285-287). -/
def descBySnd {V : Type} (a b : V × ℚ) : Prop := b.2 ≤ a.2

instance {V : Type} : DecidableRel (@descBySnd V) :=
  fun a b => inferInstanceAs (Decidable (b.2 ≤ a.2))

instance {V : Type} : IsTotal (V × ℚ) descBySnd :=
  ⟨fun a b => (le_total b.2 a.2).imp id id⟩

instance {V : Type} : IsTrans (V × ℚ) descBySnd :=
  ⟨fun _a _b _c h1 h2 => le_trans h2 h1⟩

/-- Embedding of `normalise_rankinglist` (lines 274-289): restrict the
ranking dictionary to the original variables, divide by the sum of the kept
values and sort the items by descending score. -/
def normalise_rankinglist {V : Type} (rankingdict : RDict V)
    (originalvariables : List V) : List (V × ℚ) :=
  let total : ℚ := (originalvariables.map rankingdict.val).sum
  List.insertionSort descBySnd
    (originalvariables.map fun v => (v, rankingdict.val v / total))

/-- Normalization of a ranking dictionary, `norm_dict` (lines 129-132):
every value divided by the sum of all values, over the same keys. -/
def norm_dict {V : Type} (d : RDict V) : RDict V :=
  ⟨d.keys, fun v => d.val v / (d.keys.map d.val).sum⟩

/-- Sorted item list of a ranking dictionary,
`sorted(rankingdict.iteritems(), key=operator.itemgetter(1), reverse=True)`
(lines 262-264). -/
def sortedRankList {V : Type} (d : RDict V) : List (V × ℚ) :=
  List.insertionSort descBySnd (d.keys.map fun v => (v, d.val v))

/-- Embedding of `calc_simple_rank` (lines 135-271).  The gain matrix,
bias vector and damping factor are processed exactly as in the source; the
four library centrality routines (`nx.eigenvector_centrality`,
`nx.katz_centrality`, `nx.pagerank` and the `np.linalg.eig`-based simple
path) are abstracted as function parameters from the graph (or matrix) they
receive to a score dictionary.  The two `raise NameError("Method not
defined")` branches and the unbound `rankingdict` reached on an unknown
package name (line 262) are embedded as `Except.error`. -/
def calc_simple_rank {V : Type} {n : ℕ} (gainmatrix : Matrix (Fin n) (Fin n) ℚ)
    (vars : Fin n → V) (biasvector : Fin n → ℚ) (m alpha : ℚ)
    (rank_method package : String)
    (nx_eigenvector_centrality : List (V × V × ℚ) → RDict V)
    (nx_katz_centrality : List (V × V × ℚ) → ℚ → RDict V)
    (nx_pagerank : List (V × V × ℚ) → ℚ → RDict V)
    (linalg_eig_rank : Matrix (Fin n) (Fin n) ℚ → RDict V) :
    Except String (RDict V × List (V × ℚ)) :=
  let wm := weightmatrix m gainmatrix biasvector
  let gt := gainmatrixT gainmatrix
  if package = "networkx" then
    let reset_edges := reset_gaingraph vars wm
    let sparse_edges := sparse_gaingraph vars gt
    if rank_method = "eigenvector" then
      let d := norm_dict (nx_eigenvector_centrality (reverseG reset_edges))
      .ok (d, sortedRankList d)
    else if rank_method = "katz" then
      let d := norm_dict (nx_katz_centrality (reverseG sparse_edges) alpha)
      .ok (d, sortedRankList d)
    else if rank_method = "pagerank" then
      let d := norm_dict (nx_pagerank (reverseG sparse_edges) m)
      .ok (d, sortedRankList d)
    else
      .error "Method not defined"
  else if package = "simple" then
    if rank_method = "eigenvector" then
      let d := linalg_eig_rank wm
      .ok (d, sortedRankList d)
    else
      .error "Method not defined"
  else
    .error "NameError: name rankingdict is not defined"

/-- Index pairs (row, col) of the nonzero entries of a matrix, as paired by
`itertools.izip(mat.nonzero()[1], mat.nonzero()[0])` in
`create_importance_graph` (the code binds them as (col, row)). -/
def nonzeroPairs {n : ℕ} (mat : Matrix (Fin n) (Fin n) ℚ) :
    List (Fin n × Fin n) :=
  (allPairs n).filter fun p => decide (mat p.1 p.2 ≠ 0)

/-- Open graph of `create_importance_graph` (lines 347-354): for every
nonzero entry (row, col) of the open connection matrix, the edge
`add_edge(variablelist[col], variablelist[row], weight=gainmatrix[row, col])`. -/
def opengraph {V : Type} {n : ℕ} (vars : Fin n → V)
    (openconnections gainmatrix : Matrix (Fin n) (Fin n) ℚ) :
    List (V × V × ℚ) :=
  (nonzeroPairs openconnections).map
    fun p => (vars p.2, vars p.1, gainmatrix p.1 p.2)

/-- Closed graph of `create_importance_graph` (lines 357-362): for every
nonzero entry (row, col) of the closed connection matrix, the edge
(variablelist[col], variablelist[row]) weighted by the gain, carrying the
`controlloop` flag `int(newedge not in openedgelist)`. -/
def closedgraph {V : Type} [DecidableEq V] {n : ℕ} (vars : Fin n → V)
    (closedconnections openconnections gainmatrix : Matrix (Fin n) (Fin n) ℚ) :
    List (V × V × ℚ × ℕ) :=
  let openedgelist : List (V × V) :=
    (opengraph vars openconnections gainmatrix).map fun e => (e.1, e.2.1)
  (nonzeroPairs closedconnections).map fun p =>
    (vars p.2, vars p.1, gainmatrix p.1 p.2,
      if (vars p.2, vars p.1) ∈ openedgelist then 0 else 1)

/-- Node list of an edge list: both endpoints of every edge, as created by
networkx `add_edge`. -/
def nodesOf {V : Type} (es : List (V × V × ℚ)) : List V :=
  es.flatMap fun e => [e.1, e.2.1]

/-- Node list of the closed graph (its edges carry the extra flag). -/
def nodesOfClosed {V : Type} (es : List (V × V × ℚ × ℕ)) : List V :=
  es.flatMap fun e => [e.1, e.2.1]

/-- Importance annotation loop of `create_importance_graph` (lines 364-365):
every node of the closed graph receives `importance = ranks[node]`. -/
def importanceAttrs {V : Type} [DecidableEq V] {n : ℕ} (vars : Fin n → V)
    (closedconnections openconnections gainmatrix : Matrix (Fin n) (Fin n) ℚ)
    (ranks : V → ℚ) : List (V × ℚ) :=
  (nodesOfClosed
    (closedgraph vars closedconnections openconnections gainmatrix)).map
    fun v => (v, ranks v)

/-- Embedding of the window handling of `dorankcalc` (lines 495-520, 625-629).
The per-window loop body (lines 498-503) only computes `modgainmatrix`; the
call of `calc_gainrank` and the two `append`s sit after the loop, so exactly
one ranking dictionary (for the final window's gain matrix) is ever appended
to `backward_rankingdicts`, which is then handed to
`calc_transient_importancediffs`.  `rankOf` abstracts
`calc_gainrank` (backward transform plus `calc_simple_rank`). -/
def dorankcalc_trackerInput {G R : Type} (gainmatrices : List G)
    (preprocessing : Bool) (preprocess : G → G) (rankOf : G → R) : List R :=
  match gainmatrices.getLast? with
  | none => []
  | some gm => [rankOf (if preprocessing then preprocess gm else gm)]

/-- Modelled from the spec wording of claim C3 (for comparison with the code):
a fully connected digraph whose native edge runs from the column-index
variable to the row-index variable with weight `wm[row, col]`. -/
def spec_reset_gaingraph {V : Type} {n : ℕ} (vars : Fin n → V)
    (wm : Matrix (Fin n) (Fin n) ℚ) : List (V × V × ℚ) :=
  (allPairs n).map fun p => (vars p.2, vars p.1, wm p.1 p.2)

/-- Claim C1 (code bug): for a scenario with two windows, `dorankcalc` hands
the temporal tracker a single-element list holding only the last window's
ranking, not one ranking per window: the per-window loop body ends after the
preprocessing step, and the ranking call plus both appends sit after the
loop. -/
theorem C1_dorankcalc_drops_windows :
    dorankcalc_trackerInput [0, 1] false id (fun g : ℕ => g) = [1] ∧
    (dorankcalc_trackerInput [0, 1] false id (fun g : ℕ => g)).length = 1 ∧
    (1 : ℕ) ≠ 2 := by
  refine ⟨rfl, rfl, by decide⟩

/-- Claim C2 (counterexample): the gain matrix `[[1,0],[1,0]]` has column 1
all-zero, the bias `[1,1]` has positive sum and `m = 1/2` lies in (0,1], yet
the fully constructed weight matrix does not have column 1 all-zero (its
entry (0,1) is 2/3): the reset mixing re-introduces mass into the column. -/
theorem C2_counterexample :
    (∀ i : Fin 2, (!![(1:ℚ), 0; 1, 0]) i 1 = 0) ∧
    (0 : ℚ) < (∑ k, (![(1:ℚ), 1]) k) ∧
    (0 : ℚ) < 1/2 ∧ (1/2 : ℚ) ≤ 1 ∧
    ¬ (∀ i : Fin 2, weightmatrix (1/2) !![(1:ℚ), 0; 1, 0] ![1, 1] i 1 = 0) := by
  refine ⟨?_, ?_, by norm_num, by norm_num, ?_⟩
  · intro i
    fin_cases i <;> norm_num
  · norm_num [Fin.sum_univ_two]
  · intro h
    have h0 := h 0
    rw [show weightmatrix (1/2) !![(1:ℚ), 0; 1, 0] ![1, 1] 0 1 = 2/3 by
      norm_num [weightmatrix, weightmatrixPre, normColsUnguarded, normCols,
        colAbsSum, resetmatrix, relativeResetVectorNorm, Fin.sum_univ_two,
        Matrix.transpose_apply, abs_div]] at h0
    norm_num at h0

/-- Claim C2 (amended): the zero-column pass-through holds at the
column-normalization step, not after the full construction: a gain matrix
column that is all-zero is left all-zero by `normCols` (no uniform-fill
fallback), while the final weight matrix column is in general nonzero. -/
theorem C2_normCols_zero_column_passthrough {n : ℕ}
    (g : Matrix (Fin n) (Fin n) ℚ) (j : Fin n) (h : ∀ i, g i j = 0) :
    ∀ i, normCols g i j = 0 := by
  intro i
  have hc : colAbsSum g j = 0 := by
    simp [colAbsSum, h]
  simp [normCols, hc, h i]

/-- Witness for the amended claim C2 at the concrete counterexample input. -/
theorem C2_witness :
    (∀ i : Fin 2, (!![(1:ℚ), 0; 1, 0]) i 1 = 0) ∧
    (∀ i : Fin 2, normCols !![(1:ℚ), 0; 1, 0] i 1 = 0) := by
  have h : ∀ i : Fin 2, (!![(1:ℚ), 0; 1, 0]) i 1 = 0 := by
    intro i
    fin_cases i <;> norm_num
  exact ⟨h, C2_normCols_zero_column_passthrough !![(1:ℚ), 0; 1, 0] 1 h⟩

/-- Claim C4 (counterexample): with bias `[1, 3]` the reset matrix entry
(0, 1) equals 3/4 = b_norm[1], not b_norm[0] = 1/4: each ROW of the reset
matrix is the normalized bias vector, so `R[i,j] = b_norm[j]`, not
`b_norm[i]` as the claim states. -/
theorem C4_counterexample :
    resetmatrix ![(1:ℚ), 3] 0 1 = 3/4 ∧
    relativeResetVectorNorm ![(1:ℚ), 3] 0 = 1/4 ∧
    resetmatrix ![(1:ℚ), 3] 0 1 ≠ relativeResetVectorNorm ![(1:ℚ), 3] 0 := by
  refine ⟨?_, ?_, ?_⟩ <;>
    norm_num [resetmatrix, relativeResetVectorNorm, Fin.sum_univ_two]

/-- Claim C4 (amended): the reset matrix stacks the normalized bias vector as
every ROW, `R[i,j] = b_norm[j] = b[j] / sum(b)`; consequently each of its
columns is constant (and it is the TRANSPOSE of the reset matrix whose
columns all equal the normalized bias vector). -/
theorem C4_resetmatrix_rows {n : ℕ} (b : Fin n → ℚ) (i j : Fin n) :
    resetmatrix b i j = b j / ∑ k, b k ∧
    (∀ i2 : Fin n, resetmatrix b i j = resetmatrix b i2 j) ∧
    resetmatrix b i j = (resetmatrix b).transpose j i :=
  ⟨rfl, fun _ => rfl, rfl⟩

/-- Claim C5 (counterexample): with `m = 1` (inside the claimed admissible
interval (0,1]), gain matrix `[[1,1],[0,0]]` and bias `[1,1]`, the step-4
re-normalization of the transposed weight matrix encounters column 1 with
absolute sum 0 and divides by it anyway: the step has no zero-column guard,
unlike step 1. -/
theorem C5_counterexample :
    ((0:ℚ) < 1 ∧ (1:ℚ) ≤ 1) ∧
    (∀ i : Fin 2, 0 ≤ (![(1:ℚ), 1]) i) ∧
    (0:ℚ) < (∑ k, (![(1:ℚ), 1]) k) ∧
    colAbsSum (weightmatrixPre 1 !![(1:ℚ), 1; 0, 0] ![1, 1]).transpose 1 = 0 := by
  refine ⟨⟨by norm_num, le_refl 1⟩, ?_, ?_, ?_⟩
  · intro i
    fin_cases i <;> norm_num
  · norm_num [Fin.sum_univ_two]
  · norm_num [colAbsSum, weightmatrixPre, normCols, resetmatrix,
      relativeResetVectorNorm, Fin.sum_univ_two, Matrix.transpose_apply,
      Matrix.add_apply, Matrix.smul_apply, abs_div]

/-- Column absolute sums are nonnegative. -/
theorem colAbsSum_nonneg {n : ℕ} (g : Matrix (Fin n) (Fin n) ℚ) (j : Fin n) :
    0 ≤ colAbsSum g j :=
  Finset.sum_nonneg fun _ _ => abs_nonneg _

/-- Column normalization preserves entrywise nonnegativity. -/
theorem normCols_nonneg {n : ℕ} (g : Matrix (Fin n) (Fin n) ℚ)
    (hg : ∀ i j, 0 ≤ g i j) : ∀ i j, 0 ≤ normCols g i j := by
  intro i j
  unfold normCols
  simp only [Matrix.of_apply]
  split
  · exact hg i j
  · exact div_nonneg (hg i j) (colAbsSum_nonneg g j)

/-- Claim C5 (amended): the step-4 re-normalization has no zero-column guard;
it divides every column of the transposed mixed matrix by its absolute sum
unconditionally.  For a nonnegative gain matrix, a nonnegative bias vector
with positive sum and `m` in [0,1) every such divisor is positive, so no
division by zero occurs there; at `m = 1` (still inside the claimed interval
(0,1]) a zero divisor is possible, as the counterexample shows. -/
theorem C5_step4_divisors_positive {n : ℕ} (g : Matrix (Fin n) (Fin n) ℚ)
    (b : Fin n → ℚ) (m : ℚ)
    (hg : ∀ i j, 0 ≤ g i j) (hb : ∀ i, 0 ≤ b i) (hbs : 0 < ∑ k, b k)
    (hm0 : 0 ≤ m) (hm1 : m < 1) (j : Fin n) :
    0 < colAbsSum (weightmatrixPre m g b).transpose j := by
  have hS : (∑ k, b k) ≠ 0 := ne_of_gt hbs
  have hG1 := normCols_nonneg g hg
  have hW : ∀ i : Fin n,
      (1 - m) * (b i / ∑ k, b k) ≤ |(weightmatrixPre m g b) j i| := by
    intro i
    have hreset : 0 ≤ b i / ∑ k, b k := div_nonneg (hb i) (le_of_lt hbs)
    have hwv : (weightmatrixPre m g b) j i
        = m * normCols g j i + (1 - m) * (b i / ∑ k, b k) := by
      simp [weightmatrixPre, Matrix.add_apply, Matrix.smul_apply, resetmatrix,
        relativeResetVectorNorm, smul_eq_mul]
    have h1 : 0 ≤ m * normCols g j i := mul_nonneg hm0 (hG1 j i)
    have h2 : 0 ≤ (1 - m) * (b i / ∑ k, b k) :=
      mul_nonneg (by linarith) hreset
    rw [hwv, abs_of_nonneg (by linarith)]
    linarith
  have hsum : ∑ i, (1 - m) * (b i / ∑ k, b k) = 1 - m := by
    rw [← Finset.mul_sum, ← Finset.sum_div, div_self hS, mul_one]
  have hle : (1 - m) ≤ colAbsSum (weightmatrixPre m g b).transpose j := by
    unfold colAbsSum
    calc (1 - m) = ∑ i, (1 - m) * (b i / ∑ k, b k) := hsum.symm
    _ ≤ ∑ i, |(weightmatrixPre m g b).transpose i j| := by
        apply Finset.sum_le_sum
        intro i _
        rw [Matrix.transpose_apply]
        exact hW i
  linarith

/-- Witness for the amended claim C5 at a concrete nonnegative input. -/
theorem C5_witness :
    (∀ i j : Fin 2, 0 ≤ (!![(1:ℚ), 2; 3, 4]) i j) ∧
    (∀ i : Fin 2, 0 ≤ (![(1:ℚ), 1]) i) ∧
    (0:ℚ) < (∑ k, (![(1:ℚ), 1]) k) ∧
    (0:ℚ) ≤ 1/2 ∧ (1/2:ℚ) < 1 ∧
    0 < colAbsSum (weightmatrixPre (1/2) !![(1:ℚ), 2; 3, 4] ![1, 1]).transpose 0 := by
  have hg : ∀ i j : Fin 2, 0 ≤ (!![(1:ℚ), 2; 3, 4]) i j := by
    intro i j
    fin_cases i <;> fin_cases j <;> norm_num
  have hb : ∀ i : Fin 2, 0 ≤ (![(1:ℚ), 1]) i := by
    intro i
    fin_cases i <;> norm_num
  have hbs : (0:ℚ) < (∑ k, (![(1:ℚ), 1]) k) := by
    norm_num [Fin.sum_univ_two]
  exact ⟨hg, hb, hbs, by norm_num, by norm_num,
    C5_step4_divisors_positive !![(1:ℚ), 2; 3, 4] ![1, 1] (1/2) hg hb hbs
      (by norm_num) (by norm_num) 0⟩

/-- Claim C3 (counterexample): for the asymmetric weight matrix
`[[5,7],[3,4]]` over the two variables 0 and 1, the graph the code hands to
eigenvector centrality (the reversal of its native graph) carries weight
`wm[1,0] = 3` on the edge 0 → 1, while the graph described by the claim (the
reversal of a native col → row graph) would carry `wm[0,1] = 7` there: the
code's native edges run row → col, not col → row. -/
theorem C3_counterexample :
    edgeWeightOn (reverseG (reset_gaingraph (fun i => i) !![(5:ℚ), 7; 3, 4]))
      0 1 = some 3 ∧
    edgeWeightOn (reverseG (spec_reset_gaingraph (fun i => i) !![(5:ℚ), 7; 3, 4]))
      0 1 = some 7 ∧
    (3 : ℚ) ≠ 7 := by
  refine ⟨rfl, rfl, by norm_num⟩

/-- Every index pair occurs in the nested loop enumeration. -/
theorem mem_allPairs {n : ℕ} (p : Fin n × Fin n) : p ∈ allPairs n := by
  rcases p with ⟨r, c⟩
  simp only [allPairs, List.mem_flatMap, List.mem_map, List.mem_finRange]
  exact ⟨c, by simp, r, by simp⟩

/-- Claim C3 (amended): the native fully connected graph has, for every
(row, col) pair, an edge from the ROW-index variable to the column-index
variable with weight `wm[row, col]`; eigenvector centrality runs on its edge
reversal, whose edges therefore go from the column-index variable to the
row-index variable with that same weight. -/
theorem C3_reset_graph_characterization {V : Type} {n : ℕ} (vars : Fin n → V)
    (wm : Matrix (Fin n) (Fin n) ℚ) (u v : V) (w : ℚ) :
    ((u, v, w) ∈ reset_gaingraph vars wm ↔
      ∃ r c : Fin n, u = vars r ∧ v = vars c ∧ w = wm r c) ∧
    ((u, v, w) ∈ reverseG (reset_gaingraph vars wm) ↔
      ∃ r c : Fin n, u = vars c ∧ v = vars r ∧ w = wm r c) := by
  constructor
  · constructor
    · intro h
      rcases List.mem_map.mp h with ⟨p, _, hp⟩
      rcases p with ⟨r, c⟩
      simp only [Prod.mk.injEq] at hp
      obtain ⟨h1, h2, h3⟩ := hp
      exact ⟨r, c, h1.symm, h2.symm, h3.symm⟩
    · rintro ⟨r, c, rfl, rfl, rfl⟩
      exact List.mem_map.mpr ⟨(r, c), mem_allPairs (r, c), rfl⟩
  · constructor
    · intro h
      rcases List.mem_map.mp h with ⟨e, he, hrev⟩
      rcases List.mem_map.mp he with ⟨p, _, hp⟩
      rcases p with ⟨r, c⟩
      subst hp
      simp only [reverseG, Prod.mk.injEq] at hrev
      obtain ⟨h1, h2, h3⟩ := hrev
      exact ⟨r, c, h1.symm, h2.symm, h3.symm⟩
    · rintro ⟨r, c, rfl, rfl, rfl⟩
      exact List.mem_map.mpr ⟨(vars r, vars c, wm r c),
        List.mem_map.mpr ⟨(r, c), mem_allPairs (r, c), rfl⟩, rfl⟩

/-- A left fold by `max` yields either its initial value or a list element. -/
theorem foldl_max_mem : ∀ (xs : List ℚ) (a : ℚ),
    xs.foldl max a = a ∨ xs.foldl max a ∈ xs := by
  intro xs
  induction xs with
  | nil => intro a; exact Or.inl rfl
  | cons x xs ih =>
    intro a
    rcases ih (max a x) with h | h
    · rcases max_choice a x with hm | hm
      · exact Or.inl (by rw [List.foldl_cons, h, hm])
      · exact Or.inr (by rw [List.foldl_cons, h, hm]; exact List.mem_cons_self x xs)
    · exact Or.inr (List.mem_cons_of_mem x h)

/-- The initial value bounds a left fold by `max` from below. -/
theorem le_foldl_max_init : ∀ (xs : List ℚ) (a : ℚ), a ≤ xs.foldl max a := by
  intro xs
  induction xs with
  | nil => intro a; exact le_refl a
  | cons x xs ih =>
    intro a
    exact le_trans (le_max_left a x) (ih (max a x))

/-- Every list element bounds a left fold by `max` from below. -/
theorem le_foldl_max_mem : ∀ (xs : List ℚ) (a x : ℚ), x ∈ xs → x ≤ xs.foldl max a := by
  intro xs
  induction xs with
  | nil => intro a x h; cases h
  | cons y ys ih =>
    intro a x h
    rcases List.mem_cons.mp h with rfl | h
    · exact le_trans (le_max_right a x) (le_foldl_max_init ys (max a x))
    · exact ih (max a y) x h

/-- On a nonempty list, `listMaxQ` is an element of the list. -/
theorem listMaxQ_mem (l : List ℚ) (h : l ≠ []) : listMaxQ l ∈ l := by
  match l with
  | [] => exact absurd rfl h
  | x :: xs =>
    rcases foldl_max_mem xs x with h1 | h1
    · rw [listMaxQ, h1]; exact List.mem_cons_self x xs
    · rw [listMaxQ]; exact List.mem_cons_of_mem x h1

/-- On a nonempty list, `listMaxQ` bounds every element from above. -/
theorem le_listMaxQ (l : List ℚ) (x : ℚ) (h : x ∈ l) : x ≤ listMaxQ l := by
  match l with
  | [] => cases h
  | y :: ys =>
    rcases List.mem_cons.mp h with rfl | h1
    · exact le_foldl_max_init ys x
    · exact le_foldl_max_mem ys y x h1

/-- Entry characterization of the threaded difference loop: starting the loop
at window 0's score, entry `i` is the score difference between windows
`i+1` and `i`. -/
theorem diffLoop_spec {V : Type} (v : V) :
    ∀ (rest : List (RDict V)) (d0 : RDict V) (i : ℕ) (di dj : RDict V),
      (d0 :: rest)[i]? = some di → (d0 :: rest)[i + 1]? = some dj →
      (diffLoop v (d0.val v) rest)[i]? = some (dj.val v - di.val v) := by
  intro rest
  induction rest with
  | nil =>
    intro d0 i di dj _h1 h2
    rcases i with _ | j <;> simp at h2
  | cons d1 rest2 ih =>
    intro d0 i di dj h1 h2
    rcases i with _ | j
    · simp only [List.getElem?_cons_zero, Option.some.injEq] at h1
      simp only [List.getElem?_cons_succ, List.getElem?_cons_zero,
        Option.some.injEq] at h2
      subst h1; subst h2
      simp [diffLoop]
    · have h1s : (d1 :: rest2)[j]? = some di := by simpa using h1
      have h2s : (d1 :: rest2)[j + 1]? = some dj := by simpa using h2
      simpa [diffLoop] using ih d1 j di dj h1s h2s

/-- The difference loop produces one entry per remaining window. -/
theorem diffLoop_length {V : Type} (v : V) :
    ∀ (rest : List (RDict V)) (prev : ℚ),
      (diffLoop v prev rest).length = rest.length := by
  intro rest
  induction rest with
  | nil => intro prev; rfl
  | cons d rest2 ih => intro prev; simp [diffLoop, ih]

/-- Claim C6: on a nonempty ordered list of ranking dictionaries the tracker
returns, per variable: the window-0 score as base value; a difference vector
of length k-1 whose entry i is the score difference between windows i+1 and
i; the absolute score trajectory across the windows; and the relative
trajectory, each window's score divided by the largest score occurring in
that same window (the divisor is that window's own maximum). -/
theorem C6_transient_tracker {V : Type} (d0 : RDict V) (rest : List (RDict V))
    (v : V) (hkeys : ∀ d ∈ d0 :: rest, d.keys ≠ []) :
    basevaldict (d0 :: rest) v = d0.val v ∧
    (transientdict (d0 :: rest) v).length = (d0 :: rest).length - 1 ∧
    (∀ (i : ℕ) (di dj : RDict V),
      (d0 :: rest)[i]? = some di → (d0 :: rest)[i + 1]? = some dj →
      (transientdict (d0 :: rest) v)[i]? = some (dj.val v - di.val v)) ∧
    boxrankdict (d0 :: rest) v = (d0 :: rest).map (fun d => d.val v) ∧
    (∀ (i : ℕ) (di : RDict V), (d0 :: rest)[i]? = some di →
      (rel_boxrankdict (d0 :: rest) v)[i]? = some (di.val v / maxValues di)) ∧
    (∀ d ∈ d0 :: rest, maxValues d ∈ d.keys.map d.val ∧
      ∀ x ∈ d.keys.map d.val, x ≤ maxValues d) := by
  refine ⟨rfl, ?_, ?_, rfl, ?_, ?_⟩
  · simp [transientdict, diffLoop_length]
  · intro i di dj h1 h2
    exact diffLoop_spec v rest d0 i di dj h1 h2
  · intro i di h1
    show ((d0 :: rest).map fun d => d.val v / maxValues d)[i]? = _
    rw [List.getElem?_map, h1]
    rfl
  · intro d hd
    have hne : d.keys.map d.val ≠ [] := by
      intro hmap
      exact hkeys d hd (List.map_eq_nil_iff.mp hmap)
    exact ⟨listMaxQ_mem _ hne, fun x hx => le_listMaxQ _ x hx⟩

/-- Ranking dictionary of window 0 in the spec's worked example. -/
def exWindow0 : RDict String :=
  ⟨["a", "b"], fun w => if w = "a" then 6/10 else 4/10⟩

/-- Ranking dictionary of window 1 in the spec's worked example. -/
def exWindow1 : RDict String :=
  ⟨["a", "b"], fun _ => 5/10⟩

/-- Witness for claim C6 on the spec's two-window example. -/
theorem C6_witness :
    (∀ d ∈ [exWindow0, exWindow1], d.keys ≠ []) ∧
    (basevaldict [exWindow0, exWindow1] "a" = exWindow0.val "a" ∧
    (transientdict [exWindow0, exWindow1] "a").length =
      ([exWindow0, exWindow1] : List (RDict String)).length - 1 ∧
    (∀ (i : ℕ) (di dj : RDict String),
      ([exWindow0, exWindow1] : List (RDict String))[i]? = some di →
      ([exWindow0, exWindow1] : List (RDict String))[i + 1]? = some dj →
      (transientdict [exWindow0, exWindow1] "a")[i]? =
        some (dj.val "a" - di.val "a")) ∧
    boxrankdict [exWindow0, exWindow1] "a" =
      ([exWindow0, exWindow1].map fun d => d.val "a") ∧
    (∀ (i : ℕ) (di : RDict String),
      ([exWindow0, exWindow1] : List (RDict String))[i]? = some di →
      (rel_boxrankdict [exWindow0, exWindow1] "a")[i]? =
        some (di.val "a" / maxValues di)) ∧
    (∀ d ∈ [exWindow0, exWindow1], maxValues d ∈ d.keys.map d.val ∧
      ∀ x ∈ d.keys.map d.val, x ≤ maxValues d)) := by
  have hk : ∀ d ∈ [exWindow0, exWindow1], d.keys ≠ [] := by
    intro d hd
    rcases List.mem_cons.mp hd with rfl | hd2
    · simp [exWindow0]
    · rcases List.mem_cons.mp hd2 with rfl | hd3
      · simp [exWindow1]
      · cases hd3
  exact ⟨hk, C6_transient_tracker exWindow0 [exWindow1] "a" hk⟩

/-- Dividing each mapped value by a constant divides the mapped sum. -/
theorem list_sum_map_div {V : Type} (l : List V) (f : V → ℚ) (s : ℚ) :
    (l.map fun v => f v / s).sum = (l.map f).sum / s := by
  induction l with
  | nil => simp
  | cons x xs ih => simp [ih, add_div]

/-- Claim C7: dummy suppression returns exactly the kept entries, each
divided by the sum of the kept values, sorted descending by score, and the
returned scores sum to 1 (relative proportions among kept variables are
preserved). -/
theorem C7_suppress_renormalize {V : Type} (d : RDict V) (keep : List V)
    (h : (keep.map d.val).sum ≠ 0) :
    (normalise_rankinglist d keep).Perm
      (keep.map fun v => (v, d.val v / (keep.map d.val).sum)) ∧
    List.Sorted descBySnd (normalise_rankinglist d keep) ∧
    ((normalise_rankinglist d keep).map Prod.snd).sum = 1 := by
  have hperm : (normalise_rankinglist d keep).Perm
      (keep.map fun v => (v, d.val v / (keep.map d.val).sum)) :=
    List.perm_insertionSort _ _
  refine ⟨hperm, List.sorted_insertionSort _ _, ?_⟩
  rw [(hperm.map Prod.snd).sum_eq, List.map_map]
  have hcomp : (Prod.snd ∘ fun v : V => (v, d.val v / (keep.map d.val).sum))
      = fun v => d.val v / (keep.map d.val).sum := rfl
  rw [hcomp, list_sum_map_div keep d.val, div_self h]

/-- Ranking dictionary of the spec's dummy-suppression example. -/
def exSuppressDict : RDict String :=
  ⟨["a", "b", "dummy"],
    fun w => if w = "a" then 3/10 else if w = "b" then 3/10 else 4/10⟩

/-- Witness for claim C7 on the spec's example: keeping a and b out of
`[a: 0.3, b: 0.3, dummy: 0.4]` renormalizes both to 1/2. -/
theorem C7_witness :
    ((["a", "b"].map exSuppressDict.val).sum ≠ 0) ∧
    (["a", "b"].map fun v =>
      (v, exSuppressDict.val v / (["a", "b"].map exSuppressDict.val).sum))
      = [("a", (1:ℚ)/2), ("b", (1:ℚ)/2)] ∧
    ((normalise_rankinglist exSuppressDict ["a", "b"]).Perm
      (["a", "b"].map fun v =>
        (v, exSuppressDict.val v / (["a", "b"].map exSuppressDict.val).sum)) ∧
    List.Sorted descBySnd (normalise_rankinglist exSuppressDict ["a", "b"]) ∧
    ((normalise_rankinglist exSuppressDict ["a", "b"]).map Prod.snd).sum = 1) := by
  have h : (["a", "b"].map exSuppressDict.val).sum ≠ 0 := by
    norm_num [exSuppressDict]
  refine ⟨h, ?_, C7_suppress_renormalize exSuppressDict ["a", "b"] h⟩
  norm_num [exSuppressDict]

/-- Claim C8 (counterexample): with the all-zero bias vector (entries sum to
zero) the ranking computation does not fail: there is no zero-sum guard, the
unguarded division proceeds, and the eigenvector/networkx path returns a
result. -/
theorem C8_counterexample :
    (∑ k, (![(0:ℚ), 0]) k) = 0 ∧
    (calc_simple_rank !![(1:ℚ), 0; 0, 1] (fun i : Fin 2 => i) ![0, 0]
      (1/2) (1/2) "eigenvector" "networkx"
      (fun _ => ⟨[0, 1], fun _ => 1⟩) (fun _ _ => ⟨[0, 1], fun _ => 1⟩)
      (fun _ _ => ⟨[0, 1], fun _ => 1⟩) (fun _ => ⟨[0, 1], fun _ => 1⟩)).isOk
      = true := by
  exact ⟨by norm_num [Fin.sum_univ_two], rfl⟩

/-- Claim C8 (amended): a zero-sum bias vector raises nothing; the reset
vector normalization divides by the zero sum unguarded (in exact arithmetic
the normalized reset vector degenerates to all zeros, mirroring the
non-finite values of the floating-point code) and the ranking computation
returns normally on the supported eigenvector/networkx path. -/
theorem C8_zero_bias_not_detected {V : Type} {n : ℕ}
    (g : Matrix (Fin n) (Fin n) ℚ) (vars : Fin n → V) (b : Fin n → ℚ)
    (m alpha : ℚ)
    (eigC : List (V × V × ℚ) → RDict V) (katzC : List (V × V × ℚ) → ℚ → RDict V)
    (pageC : List (V × V × ℚ) → ℚ → RDict V)
    (simpleC : Matrix (Fin n) (Fin n) ℚ → RDict V)
    (hb : (∑ k, b k) = 0) :
    relativeResetVectorNorm b = (fun _ => 0) ∧
    (calc_simple_rank g vars b m alpha "eigenvector" "networkx"
      eigC katzC pageC simpleC).isOk = true := by
  constructor
  · funext i
    simp [relativeResetVectorNorm, hb]
  · show (Except.ok _).isOk = true
    rfl

/-- Witness for the amended claim C8 at a concrete zero-sum bias input. -/
theorem C8_witness :
    (∑ k, (![(0:ℚ), 0]) k) = 0 ∧
    (relativeResetVectorNorm ![(0:ℚ), 0] = (fun _ => 0) ∧
    (calc_simple_rank !![(1:ℚ), 0; 0, 1] (fun i : Fin 2 => i) ![0, 0]
      (1/2) (1/2) "eigenvector" "networkx"
      (fun _ => ⟨[0, 1], fun _ => 1⟩) (fun _ _ => ⟨[0, 1], fun _ => 1⟩)
      (fun _ _ => ⟨[0, 1], fun _ => 1⟩)
      (fun _ => ⟨[0, 1], fun _ => 1⟩)).isOk = true) := by
  have hb : (∑ k, (![(0:ℚ), 0]) k) = 0 := by norm_num [Fin.sum_univ_two]
  exact ⟨hb, C8_zero_bias_not_detected !![(1:ℚ), 0; 0, 1] (fun i : Fin 2 => i)
    ![0, 0] (1/2) (1/2) (fun _ => ⟨[0, 1], fun _ => 1⟩)
    (fun _ _ => ⟨[0, 1], fun _ => 1⟩) (fun _ _ => ⟨[0, 1], fun _ => 1⟩)
    (fun _ => ⟨[0, 1], fun _ => 1⟩) hb⟩

/-- Claim C9: any rank method other than eigenvector, katz or pagerank under
the networkx package, any method other than eigenvector under the simple
package, and any unknown package name make `calc_simple_rank` fail (the two
explicit `raise NameError` branches, and the unbound `rankingdict` on an
unknown package), producing no ranking dictionary or list. -/
theorem C9_unsupported_method {V : Type} {n : ℕ}
    (g : Matrix (Fin n) (Fin n) ℚ) (vars : Fin n → V) (b : Fin n → ℚ)
    (m alpha : ℚ) (rank_method package : String)
    (eigC : List (V × V × ℚ) → RDict V) (katzC : List (V × V × ℚ) → ℚ → RDict V)
    (pageC : List (V × V × ℚ) → ℚ → RDict V)
    (simpleC : Matrix (Fin n) (Fin n) ℚ → RDict V)
    (h : (package = "networkx" ∧ rank_method ≠ "eigenvector" ∧
          rank_method ≠ "katz" ∧ rank_method ≠ "pagerank") ∨
         (package = "simple" ∧ rank_method ≠ "eigenvector") ∨
         (package ≠ "networkx" ∧ package ≠ "simple")) :
    ∃ e : String, calc_simple_rank g vars b m alpha rank_method package
      eigC katzC pageC simpleC = .error e := by
  rcases h with ⟨hp, h1, h2, h3⟩ | ⟨hp, h1⟩ | ⟨h1, h2⟩
  · subst hp
    exact ⟨"Method not defined", by simp [calc_simple_rank, h1, h2, h3]⟩
  · subst hp
    exact ⟨"Method not defined", by simp [calc_simple_rank, h1]⟩
  · exact ⟨"NameError: name rankingdict is not defined",
      by simp [calc_simple_rank, h1, h2]⟩

/-- Witness for claim C9 on the unknown method name "closeness" under the
networkx package. -/
theorem C9_witness :
    (("networkx" : String) = "networkx" ∧ ("closeness" : String) ≠ "eigenvector" ∧
      ("closeness" : String) ≠ "katz" ∧ ("closeness" : String) ≠ "pagerank") ∧
    (∃ e : String, calc_simple_rank !![(1:ℚ), 0; 0, 1] (fun i : Fin 2 => i)
      ![1, 1] (1/2) (1/2) "closeness" "networkx"
      (fun _ => ⟨[0, 1], fun _ => 1⟩) (fun _ _ => ⟨[0, 1], fun _ => 1⟩)
      (fun _ _ => ⟨[0, 1], fun _ => 1⟩)
      (fun _ => ⟨[0, 1], fun _ => 1⟩) = .error e) := by
  have h : ("networkx" : String) = "networkx" ∧
      ("closeness" : String) ≠ "eigenvector" ∧
      ("closeness" : String) ≠ "katz" ∧ ("closeness" : String) ≠ "pagerank" := by
    refine ⟨rfl, ?_, ?_, ?_⟩ <;> decide
  exact ⟨h, C9_unsupported_method !![(1:ℚ), 0; 0, 1] (fun i : Fin 2 => i)
    ![1, 1] (1/2) (1/2) "closeness" "networkx"
    (fun _ => ⟨[0, 1], fun _ => 1⟩) (fun _ _ => ⟨[0, 1], fun _ => 1⟩)
    (fun _ _ => ⟨[0, 1], fun _ => 1⟩) (fun _ => ⟨[0, 1], fun _ => 1⟩)
    (Or.inl h)⟩

/-- Membership in the nonzero-entry enumeration. -/
theorem mem_nonzeroPairs {n : ℕ} (mat : Matrix (Fin n) (Fin n) ℚ)
    (p : Fin n × Fin n) : p ∈ nonzeroPairs mat ↔ mat p.1 p.2 ≠ 0 := by
  simp [nonzeroPairs, List.mem_filter, mem_allPairs]

/-- Claim C10: the node set of each annotated graph is exactly the set of
variables incident to a nonzero entry of the corresponding connectivity
matrix, and the importance attribute is assigned exactly to the closed
graph's nodes (with the node's ranking score as value): a variable whose
closed-connectivity row and column are entirely zero appears in neither, no
matter its ranking score. -/
theorem C10_graph_nodes {V : Type} [DecidableEq V] {n : ℕ} (vars : Fin n → V)
    (closedconnections openconnections gainmatrix : Matrix (Fin n) (Fin n) ℚ)
    (ranks : V → ℚ) (v : V) :
    (v ∈ nodesOf (opengraph vars openconnections gainmatrix) ↔
      ∃ r c : Fin n, openconnections r c ≠ 0 ∧ (v = vars c ∨ v = vars r)) ∧
    (v ∈ nodesOfClosed (closedgraph vars closedconnections openconnections
        gainmatrix) ↔
      ∃ r c : Fin n, closedconnections r c ≠ 0 ∧ (v = vars c ∨ v = vars r)) ∧
    (∀ x : ℚ, (v, x) ∈ importanceAttrs vars closedconnections openconnections
        gainmatrix ranks ↔
      (v ∈ nodesOfClosed (closedgraph vars closedconnections openconnections
        gainmatrix) ∧ x = ranks v)) := by
  refine ⟨?_, ?_, ?_⟩
  · constructor
    · intro h
      rcases List.mem_flatMap.mp h with ⟨e, he, hv⟩
      rcases List.mem_map.mp he with ⟨p, hp, hpe⟩
      subst hpe
      simp only [List.mem_cons, List.not_mem_nil, or_false] at hv
      exact ⟨p.1, p.2, (mem_nonzeroPairs openconnections p).mp hp, hv⟩
    · rintro ⟨r, c, hnz, hv⟩
      refine List.mem_flatMap.mpr
        ⟨(vars c, vars r, gainmatrix r c), List.mem_map.mpr
          ⟨(r, c), (mem_nonzeroPairs openconnections (r, c)).mpr hnz, rfl⟩, ?_⟩
      rcases hv with rfl | rfl
      · exact List.mem_cons_self _ _
      · exact List.mem_cons_of_mem _ (List.mem_cons_self _ _)
  · constructor
    · intro h
      rcases List.mem_flatMap.mp h with ⟨e, he, hv⟩
      rcases List.mem_map.mp he with ⟨p, hp, hpe⟩
      subst hpe
      simp only [List.mem_cons, List.not_mem_nil, or_false] at hv
      exact ⟨p.1, p.2, (mem_nonzeroPairs closedconnections p).mp hp, hv⟩
    · rintro ⟨r, c, hnz, hv⟩
      refine List.mem_flatMap.mpr
        ⟨(vars c, vars r, gainmatrix r c,
          if (vars c, vars r) ∈ (opengraph vars openconnections gainmatrix).map
            (fun e => (e.1, e.2.1)) then 0 else 1),
          List.mem_map.mpr
            ⟨(r, c), (mem_nonzeroPairs closedconnections (r, c)).mpr hnz, rfl⟩, ?_⟩
      rcases hv with rfl | rfl
      · exact List.mem_cons_self _ _
      · exact List.mem_cons_of_mem _ (List.mem_cons_self _ _)
  · intro x
    constructor
    · intro h
      rcases List.mem_map.mp h with ⟨u, hu, hux⟩
      simp only [Prod.mk.injEq] at hux
      obtain ⟨rfl, rfl⟩ := hux
      exact ⟨hu, rfl⟩
    · rintro ⟨hu, rfl⟩
      exact List.mem_map.mpr ⟨v, hu, rfl⟩

end FaultMap
